import Mathlib

/-!
Verification of the caching / bounded-history core of `ai_smart_traveller`.

Shallow embedding of:
* `src/ai_smart_traveller/models/memory_manager.py` (`LimitedChatMessageHistory`)
* `src/ai_smart_traveller/core/agent_manager.py`   (`AgentManager`)
* `src/ai_smart_traveller/core/agent_builder.py`   (`AgentWrapper.ainvoke`)

Python `dict`s preserve insertion order; they are embedded as association
lists in insertion order with unique keys.  Timestamps (`time.time()`) are
embedded as integers.  `int(len(content) * 0.75)` is exact in IEEE doubles
(0.75 = 3/4 and the products involved are far below 2^53), so it is embedded
as natural-number division `3 * n / 4`.
-/

namespace AiSmartTraveller

/-! ## Bounded History Log (`memory_manager.py`, `LimitedChatMessageHistory`) -/

/-- A langchain `BaseMessage`: `type` is the role tag (`"system"`, `"human"`,
`"ai"`), `content` the text. -/
structure Message where
  type : String
  content : String
deriving Repr, DecidableEq

/-- Embeds `_is_system_message`: `message.type == "system"`. -/
def isSystemMessage (m : Message) : Bool :=
  m.type == "system"

/-- Per-message part of `_estimate_tokens`: `int(len(content) * 0.75)`. -/
def approxTokens (m : Message) : Nat :=
  3 * m.content.length / 4

/-- Embeds `_estimate_tokens`: sum of the per-message estimates. -/
def estimateTokens (msgs : List Message) : Nat :=
  (msgs.map approxTokens).sum

/-- The count-trim deletion of `_apply_limits` step 1: the loop collects the
indices of the first `excess_count` non-system messages and deletes them,
i.e. it removes the oldest `n` non-system messages. -/
def removeOldestNonSystem : Nat → List Message → List Message
  | 0, msgs => msgs
  | _ + 1, [] => []
  | n + 1, m :: rest =>
    if isSystemMessage m then m :: removeOldestNonSystem (n + 1) rest
    else removeOldestNonSystem n rest

/-- Deletion of the oldest non-system message (`oldest_non_system_idx`
search plus `del` in `_apply_limits` step 2); `none` when every message is a
system message. -/
def removeFirstNonSystem : List Message → Option (List Message)
  | [] => none
  | m :: rest =>
    if isSystemMessage m then (removeFirstNonSystem rest).map (m :: ·)
    else some rest

/-- The `while estimated_tokens > max_tokens and len(messages) > 2` loop of
`_apply_limits` step 2, fueled; each iteration removes one message, so fuel
`msgs.length` is never exhausted. -/
def tokenTrimFuel (maxTokens : Nat) : Nat → List Message → List Message
  | 0, msgs => msgs
  | fuel + 1, msgs =>
    if maxTokens < estimateTokens msgs ∧ 2 < msgs.length then
      match removeFirstNonSystem msgs with
      | some msgs' => tokenTrimFuel maxTokens fuel msgs'
      | none => msgs
    else msgs

/-- Embeds `_apply_limits` step 2 (the guarding `if estimated_tokens > max_tokens`
is subsumed by the `while` condition re-checked on entry). -/
def tokenTrim (maxTokens : Nat) (msgs : List Message) : List Message :=
  tokenTrimFuel maxTokens msgs.length msgs

/-- Embeds `_apply_limits`: count trim (step 1) then token trim (step 2). -/
def applyLimits (maxMessages maxTokens : Nat) (msgs : List Message) : List Message :=
  let msgs1 :=
    if maxMessages < msgs.length then
      removeOldestNonSystem (msgs.length - maxMessages) msgs
    else msgs
  tokenTrim maxTokens msgs1

/-- Embeds `add_message`: `super().add_message(message)` (append) then
`self._apply_limits()`. -/
def addMessage (maxMessages maxTokens : Nat) (msgs : List Message) (m : Message) :
    List Message :=
  applyLimits maxMessages maxTokens (msgs ++ [m])

/-- Appending a batch of messages one by one via `add_message`. -/
def addAll (maxMessages maxTokens : Nat) (msgs : List Message) (news : List Message) :
    List Message :=
  news.foldl (addMessage maxMessages maxTokens) msgs

/-- Embeds `get_limit_warning`.  The Python thresholds compare against
`max * 0.8`; the comparison is embedded as `5 * value ≥ 4 * max` (the float
rounding of `0.8` is immaterial here because both branches of the final
`if warnings:` return `None`). -/
def getLimitWarning (maxMessages maxTokens : Nat) (messages : List Message) :
    Option String :=
  let messageCount := messages.length
  let warnings : List String :=
    (if 4 * maxMessages ≤ 5 * messageCount then
      ["对话消息数量警告"] else []) ++
    (if 4 * maxTokens ≤ 5 * estimateTokens messages then
      ["Token使用量警告"] else [])
  if warnings ≠ [] then
    -- `# 暂时关闭警告提示` : the warning display is disabled
    none
  else none

/-! ## Handle Cache (`agent_manager.py`, `AgentManager`)

Python `dict` embedding: association list in insertion order, unique keys.
`d[k] = v` updates in place when `k` is present, otherwise appends;
`del d[k]` removes the key's entry. -/

/-- Python `str.startswith`: Python strings are sequences of code points, so
this is list-prefix over the strings' character data (equivalent to Lean's
byte-level `String.startsWith` on well-formed strings, but kernel-reducible).
-/
def strStartsWith (s pre : String) : Bool :=
  pre.data.isPrefixOf s.data

/-- Embeds `k in d`. -/
def dictContains (d : List (String × α)) (k : String) : Bool :=
  d.any (·.1 == k)

/-- Embeds the `d[k]` read. -/
def dictGet? (d : List (String × α)) (k : String) : Option α :=
  (d.find? (·.1 == k)).map (·.2)

/-- Embeds `d[k] = v`. -/
def dictSet (d : List (String × α)) (k : String) (v : α) : List (String × α) :=
  if dictContains d k then
    d.map (fun p => if p.1 == k then (k, v) else p)
  else d ++ [(k, v)]

/-- Embeds `del d[k]` (keys are unique, so removing every pair with key `k` is the
removal of the one entry). -/
def dictDel (d : List (String × α)) (k : String) : List (String × α) :=
  d.filter (fun p => !(p.1 == k))

/-- The `AgentManager` state: `_agent_cache` (agents are opaque, embedded as
numeric ids issued by `build_agent`), `_cache_timestamps`, the configuration
fields (`_max_cache_size = 100`, `_cache_ttl = 900`), plus a fresh-id source
and a counter of `build_agent` invocations for the reuse claims. -/
structure AgentManagerState where
  agentCache : List (String × Nat)
  cacheTimestamps : List (String × Int)
  maxCacheSize : Nat
  cacheTtl : Int
  nextAgentId : Nat
  buildCount : Nat
deriving Repr, DecidableEq

/-- Freshly constructed `AgentManager` (defaults from `__init__`). -/
def initialAgentManager : AgentManagerState :=
  { agentCache := []
    cacheTimestamps := []
    maxCacheSize := 100
    cacheTtl := 900
    nextAgentId := 0
    buildCount := 0 }

/-- Embeds `_cache_agent(cache_key, agent)` at wall-clock time `now`.  When the
cache is at capacity it deletes `next(iter(self._agent_cache))`, the
earliest-inserted key, from both maps (the timestamp deletion is guarded by
`if first_key in self._cache_timestamps`), then stores the new entry in both
maps. -/
def cacheAgent (s : AgentManagerState) (cacheKey : String) (agent : Nat) (now : Int) :
    AgentManagerState :=
  let s :=
    if s.maxCacheSize ≤ s.agentCache.length then
      match s.agentCache.head? with
      | some first =>
        { s with
          agentCache := dictDel s.agentCache first.1
          cacheTimestamps :=
            if dictContains s.cacheTimestamps first.1 then
              dictDel s.cacheTimestamps first.1
            else s.cacheTimestamps }
      | none => s
    else s
  { s with
    agentCache := dictSet s.agentCache cacheKey agent
    cacheTimestamps := dictSet s.cacheTimestamps cacheKey now }

/-- Embeds `get_chat_agent(user_id, llm_type)` at time `now`: on a cache hit the
cached agent is returned and the state is untouched (in particular the
timestamp is not refreshed); on a miss `build_agent` runs (fresh id,
`buildCount` bump) and the agent is cached via `_cache_agent`. -/
def getChatAgent (s : AgentManagerState) (userId llmType : String) (now : Int) :
    Nat × AgentManagerState :=
  let cacheKey := "chat_" ++ userId ++ "_" ++ llmType
  match dictGet? s.agentCache cacheKey with
  | some agent => (agent, s)
  | none =>
    let agent := s.nextAgentId
    let s' := { s with nextAgentId := s.nextAgentId + 1, buildCount := s.buildCount + 1 }
    (agent, cacheAgent s' cacheKey agent now)

/-- Embeds `get_task_agent(task_id, llm_type)` at time `now`; identical caching
logic with key pattern `task_{task_id}_{llm_type}`. -/
def getTaskAgent (s : AgentManagerState) (taskId llmType : String) (now : Int) :
    Nat × AgentManagerState :=
  let cacheKey := "task_" ++ taskId ++ "_" ++ llmType
  match dictGet? s.agentCache cacheKey with
  | some agent => (agent, s)
  | none =>
    let agent := s.nextAgentId
    let s' := { s with nextAgentId := s.nextAgentId + 1, buildCount := s.buildCount + 1 }
    (agent, cacheAgent s' cacheKey agent now)

/-- Embeds `_cleanup_expired_cache` at time `now`: collect every key whose
timestamp satisfies `now - cache_time >= ttl`, then delete each from both
maps. -/
def cleanupExpiredCache (s : AgentManagerState) (now : Int) : AgentManagerState :=
  let expiredKeys :=
    (s.cacheTimestamps.filter (fun p => s.cacheTtl ≤ now - p.2)).map (·.1)
  { s with
    agentCache := expiredKeys.foldl dictDel s.agentCache
    cacheTimestamps := expiredKeys.foldl dictDel s.cacheTimestamps }

/-- Embeds `clear_user_agent(user_id)`: collect the cache keys starting with
`"chat_{user_id}_"`, then delete each from both maps (the timestamp
deletion is guarded by `if key in self._cache_timestamps`, and `dictDel` is
a no-op on an absent key). -/
def clearUserAgent (s : AgentManagerState) (userId : String) : AgentManagerState :=
  let keysToRemove :=
    ((s.agentCache.map (·.1)).filter
      (fun k => strStartsWith k ("chat_" ++ userId ++ "_")))
  { s with
    agentCache := keysToRemove.foldl dictDel s.agentCache
    cacheTimestamps := keysToRemove.foldl dictDel s.cacheTimestamps }

/-- Embeds `clear_all_cache`. -/
def clearAllCache (s : AgentManagerState) : AgentManagerState :=
  { s with agentCache := [], cacheTimestamps := [] }

/-- Result record of `get_cache_stats`. -/
structure CacheStats where
  total_agents : Nat
  chat_agents : Nat
  task_agents : Nat
  max_cache_size : Nat
deriving Repr, DecidableEq

/-- Embeds `get_cache_stats`. -/
def getCacheStats (s : AgentManagerState) : CacheStats :=
  { total_agents := s.agentCache.length
    chat_agents := ((s.agentCache.map (·.1)).filter (fun k => strStartsWith k "chat_")).length
    task_agents := ((s.agentCache.map (·.1)).filter (fun k => strStartsWith k "task_")).length
    max_cache_size := s.maxCacheSize }

/-! ## Orchestration wrapper (`agent_builder.py`, `AgentWrapper.ainvoke`)

The external executor call is modelled by its outcome, an
`Except String String` (error or output text).  On failure the exception is
re-raised and the history is untouched; on success the request message is
appended before the response message and the limit warning (always `none`)
is consulted before returning. -/

def wrapperAinvoke (maxMessages maxTokens : Nat) (execResult : Except String String)
    (inputText : String) (history : List Message) :
    Except String String × List Message :=
  match execResult with
  | .error e => (.error e, history)
  | .ok output =>
    let h1 := addMessage maxMessages maxTokens history ⟨"human", inputText⟩
    let h2 := addMessage maxMessages maxTokens h1 ⟨"ai", output⟩
    let finalOutput :=
      match getLimitWarning maxMessages maxTokens h2 with
      | some w => output ++ "\n\n" ++ w
      | none => output
    (.ok finalOutput, h2)

/-- Repeated insertion via `_cache_agent` with distinct fresh keys (the agent
value is irrelevant to the capacity claims, each insertion stores agent `0`).
-/
def cacheAll (ks : List String) (s : AgentManagerState) (now : Int) : AgentManagerState :=
  ks.foldl (fun s k => cacheAgent s k 0 now) s

/-- A freshly constructed manager whose `_max_cache_size` is `m` (the spec
treats `maxEntries` as configuration; the code default is 100). -/
def initialAgentManagerWith (m : Nat) : AgentManagerState :=
  { agentCache := []
    cacheTimestamps := []
    maxCacheSize := m
    cacheTtl := 900
    nextAgentId := 0
    buildCount := 0 }

/-- Both caches hold exactly the same keys (in the same insertion order), and
every key is a chat key or a task key (claim C10's invariant). -/
def cacheInv (s : AgentManagerState) : Prop :=
  s.agentCache.map Prod.fst = s.cacheTimestamps.map Prod.fst ∧
  ∀ k ∈ s.agentCache.map Prod.fst,
    strStartsWith k "chat_" = true ∨ strStartsWith k "task_" = true

/-! ## Lemmas: token estimation and trimming -/

theorem estimateTokens_append (l₁ l₂ : List Message) :
    estimateTokens (l₁ ++ l₂) = estimateTokens l₁ + estimateTokens l₂ := by
  simp [estimateTokens, List.map_append, List.sum_append]

theorem estimateTokens_drop_le (n : Nat) (l : List Message) :
    estimateTokens (l.drop n) ≤ estimateTokens l := by
  conv_rhs => rw [← List.take_append_drop n l]
  rw [estimateTokens_append]
  exact Nat.le_add_left _ _

theorem removeOldestNonSystem_eq_drop (n : Nat) (l : List Message)
    (h : ∀ m ∈ l, isSystemMessage m = false) :
    removeOldestNonSystem n l = l.drop n := by
  induction l generalizing n with
  | nil => cases n <;> rfl
  | cons m rest ih =>
    cases n with
    | zero => rfl
    | succ n =>
      have hm : isSystemMessage m = false := h m (List.mem_cons_self m rest)
      simp only [removeOldestNonSystem, hm, Bool.false_eq_true, if_false,
        List.drop_succ_cons]
      exact ih n (fun x hx => h x (List.mem_cons_of_mem m hx))

theorem removeFirstNonSystem_length {l l' : List Message}
    (h : removeFirstNonSystem l = some l') : l.length = l'.length + 1 := by
  induction l generalizing l' with
  | nil => simp [removeFirstNonSystem] at h
  | cons m rest ih =>
    by_cases hm : isSystemMessage m = true
    · rw [removeFirstNonSystem, if_pos hm] at h
      rcases Option.map_eq_some'.mp h with ⟨r', hr', hcons⟩
      subst hcons
      simp [ih hr']
    · rw [removeFirstNonSystem, if_neg hm] at h
      cases h
      simp

theorem filter_system_removeFirst {l l' : List Message}
    (h : removeFirstNonSystem l = some l') :
    l'.filter isSystemMessage = l.filter isSystemMessage := by
  induction l generalizing l' with
  | nil => simp [removeFirstNonSystem] at h
  | cons m rest ih =>
    by_cases hm : isSystemMessage m = true
    · rw [removeFirstNonSystem, if_pos hm] at h
      rcases Option.map_eq_some'.mp h with ⟨r', hr', hcons⟩
      subst hcons
      simp [List.filter_cons, hm, ih hr']
    · rw [removeFirstNonSystem, if_neg hm] at h
      cases h
      simp [List.filter_cons, hm]

theorem filter_system_removeOldest (n : Nat) (l : List Message) :
    (removeOldestNonSystem n l).filter isSystemMessage = l.filter isSystemMessage := by
  induction l generalizing n with
  | nil => cases n <;> rfl
  | cons m rest ih =>
    cases n with
    | zero => rfl
    | succ n =>
      by_cases hm : isSystemMessage m = true
      · simp only [removeOldestNonSystem, hm, if_true, List.filter_cons, ih]
      · simp only [removeOldestNonSystem, hm, if_false, List.filter_cons,
          Bool.false_eq_true, ih]

theorem filter_system_tokenTrimFuel (maxT fuel : Nat) (l : List Message) :
    (tokenTrimFuel maxT fuel l).filter isSystemMessage = l.filter isSystemMessage := by
  induction fuel generalizing l with
  | zero => rfl
  | succ fuel ih =>
    by_cases hg : maxT < estimateTokens l ∧ 2 < l.length
    · rw [tokenTrimFuel, if_pos hg]
      cases hr : removeFirstNonSystem l with
      | none => rfl
      | some l' =>
        simp only []
        rw [ih l', filter_system_removeFirst hr]
    · rw [tokenTrimFuel, if_neg hg]

theorem filter_system_tokenTrim (maxT : Nat) (l : List Message) :
    (tokenTrim maxT l).filter isSystemMessage = l.filter isSystemMessage :=
  filter_system_tokenTrimFuel maxT l.length l

theorem filter_system_applyLimits (maxM maxT : Nat) (l : List Message) :
    (applyLimits maxM maxT l).filter isSystemMessage = l.filter isSystemMessage := by
  rw [applyLimits]
  by_cases hc : maxM < l.length
  · simp only [hc, if_true, filter_system_tokenTrim, filter_system_removeOldest]
  · simp only [hc, if_false, filter_system_tokenTrim]

theorem tokenTrimFuel_of_not_gt (maxT fuel : Nat) (l : List Message)
    (h : ¬(maxT < estimateTokens l ∧ 2 < l.length)) :
    tokenTrimFuel maxT fuel l = l := by
  cases fuel with
  | zero => rfl
  | succ fuel => rw [tokenTrimFuel, if_neg h]

theorem tokenTrim_eq_self_of_le (maxT : Nat) (l : List Message)
    (h : estimateTokens l ≤ maxT) : tokenTrim maxT l = l :=
  tokenTrimFuel_of_not_gt maxT l.length l (by omega)

theorem tokenTrimFuel_post (maxT : Nat) :
    ∀ (fuel : Nat) (l : List Message), l.length ≤ fuel →
      estimateTokens (tokenTrimFuel maxT fuel l) ≤ maxT ∨
      (tokenTrimFuel maxT fuel l).length ≤ 2 ∨
      removeFirstNonSystem (tokenTrimFuel maxT fuel l) = none := by
  intro fuel
  induction fuel with
  | zero =>
    intro l hl
    have hnil : l = [] := List.eq_nil_of_length_eq_zero (Nat.le_zero.mp hl)
    subst hnil
    left
    simp [tokenTrimFuel, estimateTokens]
  | succ fuel ih =>
    intro l hl
    by_cases hg : maxT < estimateTokens l ∧ 2 < l.length
    · rw [tokenTrimFuel, if_pos hg]
      cases hr : removeFirstNonSystem l with
      | none => right; right; exact hr
      | some l' =>
        simp only []
        have hlen := removeFirstNonSystem_length hr
        exact ih l' (by omega)
    · rw [tokenTrimFuel, if_neg hg]
      rcases not_and_or.mp hg with h | h
      · left; omega
      · right; left; omega

theorem tokenTrim_post (maxT : Nat) (l : List Message) :
    estimateTokens (tokenTrim maxT l) ≤ maxT ∨
    (tokenTrim maxT l).length ≤ 2 ∨
    removeFirstNonSystem (tokenTrim maxT l) = none :=
  tokenTrimFuel_post maxT l.length l le_rfl

theorem tokenTrim_step (maxT : Nat) (l l' : List Message)
    (h1 : maxT < estimateTokens l) (h2 : 2 < l.length)
    (hr : removeFirstNonSystem l = some l') :
    tokenTrim maxT l = tokenTrim maxT l' := by
  have hlen := removeFirstNonSystem_length hr
  rw [tokenTrim, hlen, tokenTrimFuel, if_pos ⟨h1, h2⟩, hr]
  rfl

/-! ## Lemmas: count trimming as suffix extraction (claim C4) -/

theorem drop_sub_append {α : Type} (p y : List α) (m : Nat) (h : m ≤ y.length) :
    (p ++ y).drop ((p ++ y).length - m) = y.drop (y.length - m) := by
  have heq : (p ++ y).length - m = p.length + (y.length - m) := by
    simp only [List.length_append]
    omega
  rw [heq, List.drop_append]

theorem drop_drop_append (a rest : List Message) (m : Nat) :
    (a.drop (a.length - m) ++ rest).drop
        ((a.drop (a.length - m) ++ rest).length - m) =
      (a ++ rest).drop ((a ++ rest).length - m) := by
  by_cases hm : a.length ≤ m
  · have h0 : a.length - m = 0 := Nat.sub_eq_zero_of_le hm
    rw [h0, List.drop_zero]
  · have hm' : m ≤ a.length := Nat.le_of_lt (Nat.lt_of_not_le hm)
    have hlen' : (a.drop (a.length - m)).length = m := by
      rw [List.length_drop]; omega
    have hy : m ≤ (a.drop (a.length - m) ++ rest).length := by
      rw [List.length_append, hlen']; omega
    have key := drop_sub_append (a.take (a.length - m))
      (a.drop (a.length - m) ++ rest) m hy
    have ha : a.take (a.length - m) ++ (a.drop (a.length - m) ++ rest) = a ++ rest := by
      rw [← List.append_assoc, List.take_append_drop]
    rw [ha] at key
    exact key.symm

theorem addMessage_eq_drop (maxM maxT : Nat) (init : List Message) (n : Message)
    (hns : ∀ m ∈ init ++ [n], isSystemMessage m = false)
    (htok : estimateTokens (init ++ [n]) ≤ maxT) :
    addMessage maxM maxT init n =
      (init ++ [n]).drop ((init ++ [n]).length - maxM) := by
  rw [addMessage, applyLimits]
  by_cases hc : maxM < (init ++ [n]).length
  · simp only [hc, if_true]
    rw [removeOldestNonSystem_eq_drop _ _ hns]
    exact tokenTrim_eq_self_of_le _ _ (le_trans (estimateTokens_drop_le _ _) htok)
  · simp only [hc, if_false]
    have h0 : (init ++ [n]).length - maxM = 0 := by omega
    rw [h0, List.drop_zero]
    exact tokenTrim_eq_self_of_le _ _ htok

theorem addAll_eq_drop (maxM maxT : Nat) :
    ∀ (news init : List Message),
      (init.length ≤ maxM ∨ news ≠ []) →
      (∀ m ∈ init, isSystemMessage m = false) →
      (∀ m ∈ news, isSystemMessage m = false) →
      estimateTokens (init ++ news) ≤ maxT →
      addAll maxM maxT init news =
        (init ++ news).drop ((init ++ news).length - maxM) := by
  intro news
  induction news with
  | nil =>
    intro init hok hinit _ _
    have hle : init.length ≤ maxM := by
      rcases hok with h | h
      · exact h
      · exact absurd rfl h
    have h0 : (init ++ []).length - maxM = 0 := by
      simp only [List.append_nil]; omega
    simp only [addAll, List.foldl_nil, List.append_nil] at *
    rw [h0, List.drop_zero]
  | cons n rest ih =>
    intro init _ hinit hnews htok
    have hstep : addAll maxM maxT init (n :: rest) =
        addAll maxM maxT (addMessage maxM maxT init n) rest := rfl
    have hns1 : ∀ m ∈ init ++ [n], isSystemMessage m = false := by
      intro m hm
      rcases List.mem_append.mp hm with h | h
      · exact hinit m h
      · rw [List.mem_singleton.mp h]
        exact hnews n (List.mem_cons_self n rest)
    have htok1 : estimateTokens (init ++ [n]) ≤ maxT := by
      have : estimateTokens (init ++ n :: rest) =
          estimateTokens (init ++ [n]) + estimateTokens rest := by
        rw [estimateTokens_append, estimateTokens_append]
        simp [estimateTokens]
        ring
      omega
    have hA := addMessage_eq_drop maxM maxT init n hns1 htok1
    set d := (init ++ [n]).length - maxM with hd
    have hlen' : (addMessage maxM maxT init n).length ≤ maxM := by
      rw [hA, List.length_drop]
      omega
    have hns' : ∀ m ∈ addMessage maxM maxT init n, isSystemMessage m = false := by
      intro m hm
      rw [hA] at hm
      exact hns1 m (List.mem_of_mem_drop hm)
    have htok' : estimateTokens (addMessage maxM maxT init n ++ rest) ≤ maxT := by
      have h1 : estimateTokens (addMessage maxM maxT init n) ≤
          estimateTokens (init ++ [n]) := by
        rw [hA]; exact estimateTokens_drop_le _ _
      have h2 : estimateTokens (init ++ n :: rest) =
          estimateTokens (init ++ [n]) + estimateTokens rest := by
        rw [estimateTokens_append, estimateTokens_append]
        simp [estimateTokens]
        ring
      rw [estimateTokens_append]
      omega
    have hrest : ∀ m ∈ rest, isSystemMessage m = false := by
      intro m hm
      exact hnews m (List.mem_cons_of_mem n hm)
    rw [hstep, ih (addMessage maxM maxT init n) (Or.inl hlen') hns' hrest htok', hA, hd]
    have := drop_drop_append (init ++ [n]) rest maxM
    rw [this, List.append_assoc, List.singleton_append]

/-! ## Lemmas: the dict embedding -/

theorem dictContains_iff {α : Type} {d : List (String × α)} {k : String} :
    dictContains d k = true ↔ ∃ v, (k, v) ∈ d := by
  constructor
  · intro h
    rcases List.any_eq_true.mp h with ⟨⟨k1, v⟩, hp, he⟩
    have hk : k1 = k := by simpa using he
    subst hk
    exact ⟨v, hp⟩
  · rintro ⟨v, hv⟩
    exact List.any_eq_true.mpr ⟨(k, v), hv, by simp⟩

theorem dictContains_eq_false_iff {α : Type} {d : List (String × α)} {k : String} :
    dictContains d k = false ↔ ∀ p ∈ d, p.1 ≠ k := by
  simp [dictContains, List.any_eq_false]

theorem dictGet?_eq_none_of_contains_false {α : Type} {d : List (String × α)} {k : String}
    (h : dictContains d k = false) : dictGet? d k = none := by
  rw [dictGet?]
  have hf : d.find? (·.1 == k) = none := by
    rw [List.find?_eq_none]
    intro p hp
    simpa using dictContains_eq_false_iff.mp h p hp
  rw [hf]
  rfl

theorem dictGet?_isSome_of_contains {α : Type} {d : List (String × α)} {k : String}
    (h : dictContains d k = true) : ∃ v, dictGet? d k = some v := by
  have hs : (d.find? (·.1 == k)).isSome := by
    rw [List.find?_isSome]
    rcases List.any_eq_true.mp h with ⟨p, hp, he⟩
    exact ⟨p, hp, he⟩
  rcases Option.isSome_iff_exists.mp hs with ⟨p, hp⟩
  exact ⟨p.2, by rw [dictGet?, hp]; rfl⟩

theorem dictGet?_eq_some_of_mem_nodup {α : Type} :
    ∀ {d : List (String × α)} {k : String} {v : α},
      (d.map Prod.fst).Nodup → (k, v) ∈ d → dictGet? d k = some v := by
  intro d
  induction d with
  | nil => intro k v _ hv; cases hv
  | cons p rest ih =>
    intro k v hnd hv
    rcases List.mem_cons.mp hv with heq | hmem
    · rw [dictGet?, List.find?_cons_of_pos _ (by rw [← heq]; simp)]
      rw [← heq]
      rfl
    · have hne : ¬(p.1 == k) = true := by
        rw [List.map_cons, List.nodup_cons] at hnd
        intro he
        have hk : k ∈ rest.map Prod.fst := List.mem_map.mpr ⟨(k, v), hmem, rfl⟩
        exact hnd.1 ((by simpa using he : p.1 = k) ▸ hk)
      have hfind : List.find? (fun x => x.1 == k) (p :: rest) =
          List.find? (fun x => x.1 == k) rest := by
        rw [List.find?_cons]
        have hb : (p.1 == k) = false := by
          cases hpb : (p.1 == k) with
          | true => exact absurd hpb hne
          | false => rfl
        rw [hb]
      rw [dictGet?, hfind]
      have := ih (by rw [List.map_cons, List.nodup_cons] at hnd; exact hnd.2) hmem
      rw [dictGet?] at this
      exact this

theorem mem_dictDel {α : Type} {d : List (String × α)} {k : String} {p : String × α} :
    p ∈ dictDel d k ↔ p ∈ d ∧ p.1 ≠ k := by
  simp [dictDel, List.mem_filter]

theorem mem_foldl_dictDel {α : Type} :
    ∀ (ks : List String) (d : List (String × α)) (p : String × α),
      p ∈ ks.foldl dictDel d ↔ p ∈ d ∧ p.1 ∉ ks := by
  intro ks
  induction ks with
  | nil => simp
  | cons k ks ih =>
    intro d p
    rw [List.foldl_cons, ih, mem_dictDel]
    simp only [List.mem_cons]
    tauto

theorem contains_foldl_dictDel_iff {α : Type} {ks : List String}
    {d : List (String × α)} {k : String} :
    dictContains (ks.foldl dictDel d) k = true ↔ dictContains d k = true ∧ k ∉ ks := by
  constructor
  · rintro h
    rcases dictContains_iff.mp h with ⟨v, hv⟩
    rw [mem_foldl_dictDel] at hv
    exact ⟨dictContains_iff.mpr ⟨v, hv.1⟩, hv.2⟩
  · rintro ⟨h, hk⟩
    rcases dictContains_iff.mp h with ⟨v, hv⟩
    exact dictContains_iff.mpr ⟨v, (mem_foldl_dictDel ks d (k, v)).mpr ⟨hv, hk⟩⟩

theorem dictContains_append {α : Type} (d1 d2 : List (String × α)) (k : String) :
    dictContains (d1 ++ d2) k = (dictContains d1 k || dictContains d2 k) := by
  simp [dictContains, List.any_append]

theorem dictContains_dictDel_false {α : Type} {d : List (String × α)} {k k' : String}
    (h : dictContains d k = false) : dictContains (dictDel d k') k = false := by
  rw [dictContains_eq_false_iff] at h ⊢
  intro p hp
  exact h p (List.mem_filter.mp hp).1

theorem dictSet_of_not_contains {α : Type} {d : List (String × α)} {k : String} (v : α)
    (h : dictContains d k = false) : dictSet d k v = d ++ [(k, v)] := by
  simp [dictSet, h]

theorem dictGet?_append_self {α : Type} {d : List (String × α)} {k : String} {v : α}
    (h : dictContains d k = false) : dictGet? (d ++ [(k, v)]) k = some v := by
  rw [dictGet?, List.find?_append]
  have h1 : d.find? (·.1 == k) = none := by
    rw [List.find?_eq_none]
    intro p hp
    simpa using dictContains_eq_false_iff.mp h p hp
  rw [h1]
  simp

theorem dictDel_head {α : Type} (p : String × α) (rest : List (String × α))
    (hnd : ((p :: rest).map Prod.fst).Nodup) : dictDel (p :: rest) p.1 = rest := by
  rw [dictDel, List.filter_cons]
  simp only [beq_self_eq_true, Bool.not_true, Bool.false_eq_true, if_false]
  rw [List.filter_eq_self]
  intro q hq
  rw [List.map_cons, List.nodup_cons] at hnd
  have : q.1 ≠ p.1 := by
    intro he
    exact hnd.1 (he ▸ List.mem_map.mpr ⟨q, hq, rfl⟩)
  simpa using this

theorem map_fst_dictDel {α : Type} (d : List (String × α)) (k : String) :
    (dictDel d k).map Prod.fst = (d.map Prod.fst).filter (fun x => !(x == k)) := by
  induction d with
  | nil => rfl
  | cons p rest ih =>
    rw [dictDel, List.filter_cons, List.map_cons, List.filter_cons]
    by_cases hp : (!(p.1 == k)) = true
    · simp only [hp, if_true, List.map_cons]
      rw [← ih]
      rfl
    · simp only [hp, if_false]
      rw [← ih]
      rfl

theorem map_fst_dictSet_of_contains {α : Type} {d : List (String × α)} {k : String}
    (v : α) (h : dictContains d k = true) :
    (dictSet d k v).map Prod.fst = d.map Prod.fst := by
  rw [dictSet, if_pos h, List.map_map]
  apply List.map_congr_left
  intro p _
  by_cases hpk : (p.1 == k) = true
  · simp only [Function.comp_apply, hpk, if_true]
    exact ((beq_iff_eq ..).mp hpk).symm
  · have hne : p.1 ≠ k := by simpa using hpk
    simp [Function.comp_apply, hne]

theorem map_fst_dictSet_of_not_contains {α : Type} {d : List (String × α)} {k : String}
    (v : α) (h : dictContains d k = false) :
    (dictSet d k v).map Prod.fst = d.map Prod.fst ++ [k] := by
  rw [dictSet_of_not_contains v h, List.map_append]
  rfl

theorem dictContains_congr {α β : Type} {d1 : List (String × α)} {d2 : List (String × β)}
    (h : d1.map Prod.fst = d2.map Prod.fst) (k : String) :
    dictContains d1 k = dictContains d2 k := by
  have key : ∀ {γ : Type} (d : List (String × γ)),
      dictContains d k = (d.map Prod.fst).any (· == k) := by
    intro γ d
    induction d with
    | nil => rfl
    | cons p rest ih => simp [dictContains, List.any_cons] at ih ⊢; rw [ih]
  rw [key d1, key d2, h]

theorem map_fst_foldl_dictDel_congr {α β : Type} :
    ∀ (ks : List String) (d1 : List (String × α)) (d2 : List (String × β)),
      d1.map Prod.fst = d2.map Prod.fst →
      (ks.foldl dictDel d1).map Prod.fst = (ks.foldl dictDel d2).map Prod.fst := by
  intro ks
  induction ks with
  | nil => intro _ _ h; exact h
  | cons k ks ih =>
    intro d1 d2 h
    rw [List.foldl_cons, List.foldl_cons]
    exact ih _ _ (by rw [map_fst_dictDel, map_fst_dictDel, h])

theorem mem_map_fst_foldl_dictDel {α : Type} {ks : List String}
    {d : List (String × α)} {k : String}
    (h : k ∈ (ks.foldl dictDel d).map Prod.fst) : k ∈ d.map Prod.fst := by
  rcases List.mem_map.mp h with ⟨p, hp, hk⟩
  exact List.mem_map.mpr ⟨p, ((mem_foldl_dictDel ks d p).mp hp).1, hk⟩

/-! ## Lemmas: key prefixes -/

theorem strStartsWith_append (pre r : String) : strStartsWith (pre ++ r) pre = true := by
  rw [strStartsWith, String.data_append]
  exact List.isPrefixOf_iff_prefix.mpr (List.prefix_append pre.data r.data)

theorem chat_task_exclusive {k : String}
    (h1 : strStartsWith k "chat_" = true) (h2 : strStartsWith k "task_" = true) :
    False := by
  rw [strStartsWith] at h1 h2
  have p1 : "chat_".data <+: k.data := List.isPrefixOf_iff_prefix.mp h1
  have p2 : "task_".data <+: k.data := List.isPrefixOf_iff_prefix.mp h2
  rcases List.prefix_or_prefix_of_prefix p1 p2 with h | h
  · exact absurd h (by decide)
  · exact absurd h (by decide)

theorem mem_of_dictGet?_eq_some {α : Type} {d : List (String × α)} {k : String} {v : α}
    (h : dictGet? d k = some v) : (k, v) ∈ d := by
  rw [dictGet?] at h
  rcases Option.map_eq_some'.mp h with ⟨q, hq, hv⟩
  have hmem := List.mem_of_find?_eq_some hq
  have hcond := @List.find?_some (String × α) (fun x => x.1 == k) q d hq
  rcases q with ⟨k1, v1⟩
  simp at hcond hv
  subst hcond
  subst hv
  exact hmem

/-! ## Lemmas: `_cache_agent` and `cacheAll` -/

theorem cacheAgent_not_full {s : AgentManagerState} {k : String} {a : Nat} {now : Int}
    (hlen : s.agentCache.length < s.maxCacheSize) :
    cacheAgent s k a now =
      { s with
        agentCache := dictSet s.agentCache k a
        cacheTimestamps := dictSet s.cacheTimestamps k now } := by
  unfold cacheAgent
  have hc : ¬ s.maxCacheSize ≤ s.agentCache.length := by omega
  simp only [hc, if_false]

theorem cacheAgent_full_cons {p : String × Nat} {rest : List (String × Nat)}
    {s : AgentManagerState} {k : String} {a : Nat} {now : Int}
    (hag : s.agentCache = p :: rest)
    (hfull : s.maxCacheSize ≤ s.agentCache.length) :
    cacheAgent s k a now =
      { s with
        agentCache := dictSet (dictDel (p :: rest) p.1) k a
        cacheTimestamps :=
          dictSet
            (if dictContains s.cacheTimestamps p.1 then
              dictDel s.cacheTimestamps p.1
            else s.cacheTimestamps) k now } := by
  unfold cacheAgent
  rw [hag] at hfull
  rw [hag, if_pos hfull]
  rfl

theorem cacheAll_fill (now : Int) :
    ∀ (ks : List String) (s : AgentManagerState),
      ks.Nodup →
      (∀ k ∈ ks, dictContains s.agentCache k = false) →
      s.agentCache.length + ks.length ≤ s.maxCacheSize →
      (cacheAll ks s now).agentCache = s.agentCache ++ ks.map (fun k => (k, 0)) ∧
      (cacheAll ks s now).maxCacheSize = s.maxCacheSize := by
  intro ks
  induction ks with
  | nil =>
    intro s _ _ _
    exact ⟨by simp [cacheAll], rfl⟩
  | cons k ks ih =>
    intro s hnd hfresh hcap
    have hck : dictContains s.agentCache k = false := hfresh k (List.mem_cons_self k ks)
    have hlen : s.agentCache.length < s.maxCacheSize := by
      rw [List.length_cons] at hcap
      omega
    have hstep : cacheAll (k :: ks) s now = cacheAll ks (cacheAgent s k 0 now) now := rfl
    have hcache := @cacheAgent_not_full s k 0 now hlen
    have hag' : (cacheAgent s k 0 now).agentCache = s.agentCache ++ [(k, 0)] := by
      rw [hcache]
      exact dictSet_of_not_contains 0 hck
    have hmax' : (cacheAgent s k 0 now).maxCacheSize = s.maxCacheSize := by
      rw [hcache]
    have hfresh' : ∀ k' ∈ ks, dictContains (cacheAgent s k 0 now).agentCache k' = false := by
      intro k' hk'
      rw [hag', dictContains_append]
      have h1 : dictContains s.agentCache k' = false :=
        hfresh k' (List.mem_cons_of_mem k hk')
      have h2 : dictContains [(k, 0)] k' = false := by
        rw [dictContains_eq_false_iff]
        intro p hp
        rw [List.mem_singleton.mp hp]
        intro he
        have he' : k = k' := he
        subst he'
        exact (List.nodup_cons.mp hnd).1 hk'
      rw [h1, h2]
      rfl
    have hcap' :
        (cacheAgent s k 0 now).agentCache.length + ks.length ≤
          (cacheAgent s k 0 now).maxCacheSize := by
      rw [hag', hmax', List.length_append]
      rw [List.length_cons] at hcap
      simp only [List.length_singleton]
      omega
    rcases ih (cacheAgent s k 0 now) (List.nodup_cons.mp hnd).2 hfresh' hcap' with ⟨h1, h2⟩
    refine ⟨?_, by rw [hstep, h2, hmax']⟩
    rw [hstep, h1, hag', List.append_assoc]
    rfl

/-! ## Lemmas: expiry sweep -/

theorem mem_expiredKeys_iff {s : AgentManagerState} {now : Int} {k : String} :
    k ∈ ((s.cacheTimestamps.filter (fun p => s.cacheTtl ≤ now - p.2)).map (·.1)) ↔
      ∃ ts, (k, ts) ∈ s.cacheTimestamps ∧ s.cacheTtl ≤ now - ts := by
  constructor
  · intro h
    rcases List.mem_map.mp h with ⟨p, hp, hk⟩
    rcases List.mem_filter.mp hp with ⟨hmem, hcond⟩
    refine ⟨p.2, ?_, by simpa using hcond⟩
    rw [← hk]
    exact hmem
  · rintro ⟨ts, hmem, hcond⟩
    exact List.mem_map.mpr ⟨(k, ts), List.mem_filter.mpr ⟨hmem, by simpa using hcond⟩, rfl⟩

theorem cleanup_contains_iff {s : AgentManagerState} {clock : Int} {k : String} {ts : Int}
    (hnd : (s.cacheTimestamps.map Prod.fst).Nodup)
    (hget : dictGet? s.cacheTimestamps k = some ts)
    (hkc : dictContains s.agentCache k = true) :
    (dictContains (cleanupExpiredCache s clock).agentCache k = true ↔
      clock - ts < s.cacheTtl) := by
  have hC : dictContains (cleanupExpiredCache s clock).agentCache k = true ↔
      dictContains s.agentCache k = true ∧
        k ∉ ((s.cacheTimestamps.filter (fun p => s.cacheTtl ≤ clock - p.2)).map (·.1)) := by
    exact contains_foldl_dictDel_iff
  rw [hC, mem_expiredKeys_iff]
  constructor
  · rintro ⟨_, hnot⟩
    by_contra hlt
    exact hnot ⟨ts, mem_of_dictGet?_eq_some hget, by omega⟩
  · intro hlt
    refine ⟨hkc, ?_⟩
    rintro ⟨ts', hmem', hcond'⟩
    have : dictGet? s.cacheTimestamps k = some ts' :=
      dictGet?_eq_some_of_mem_nodup hnd hmem'
    rw [hget] at this
    cases this
    omega

/-! ## The Handle Cache map invariant (claim C10) -/

theorem map_fst_dictSet_congr {α β : Type} {d1 : List (String × α)}
    {d2 : List (String × β)} (h : d1.map Prod.fst = d2.map Prod.fst)
    (k : String) (v : α) (w : β) :
    (dictSet d1 k v).map Prod.fst = (dictSet d2 k w).map Prod.fst := by
  by_cases hc : dictContains d1 k = true
  · rw [map_fst_dictSet_of_contains v hc,
      map_fst_dictSet_of_contains w (by rw [← dictContains_congr h k]; exact hc), h]
  · have hc1 : dictContains d1 k = false := by
      revert hc
      cases dictContains d1 k <;> simp
    rw [map_fst_dictSet_of_not_contains v hc1,
      map_fst_dictSet_of_not_contains w
        (by rw [← dictContains_congr h k]; exact hc1), h]

theorem map_fst_dictDel_congr {α β : Type} {d1 : List (String × α)}
    {d2 : List (String × β)} (h : d1.map Prod.fst = d2.map Prod.fst) (k : String) :
    (dictDel d1 k).map Prod.fst = (dictDel d2 k).map Prod.fst := by
  rw [map_fst_dictDel, map_fst_dictDel, h]

theorem forall_key_dictSet {α : Type} {P : String → Prop} {d : List (String × α)}
    {k : String} (v : α) (hd : ∀ k' ∈ d.map Prod.fst, P k') (hk : P k) :
    ∀ k' ∈ (dictSet d k v).map Prod.fst, P k' := by
  intro k' hk'
  by_cases hc : dictContains d k = true
  · rw [map_fst_dictSet_of_contains v hc] at hk'
    exact hd k' hk'
  · have hc1 : dictContains d k = false := by
      revert hc
      cases dictContains d k <;> simp
    rw [map_fst_dictSet_of_not_contains v hc1] at hk'
    rcases List.mem_append.mp hk' with h | h
    · exact hd k' h
    · rw [List.mem_singleton.mp h]
      exact hk

theorem forall_key_dictDel {α : Type} {P : String → Prop} {d : List (String × α)}
    {k : String} (hd : ∀ k' ∈ d.map Prod.fst, P k') :
    ∀ k' ∈ (dictDel d k).map Prod.fst, P k' := by
  intro k' hk'
  rw [map_fst_dictDel] at hk'
  exact hd k' (List.mem_of_mem_filter hk')

theorem cacheAgent_full_nil {s : AgentManagerState} {k : String} {a : Nat} {now : Int}
    (hag : s.agentCache = []) (hfull : s.maxCacheSize ≤ s.agentCache.length) :
    cacheAgent s k a now =
      { s with
        agentCache := dictSet s.agentCache k a
        cacheTimestamps := dictSet s.cacheTimestamps k now } := by
  unfold cacheAgent
  rw [hag] at hfull
  conv_lhs => rw [hag, if_pos hfull]
  rfl

theorem cacheInv_cacheAgent {s : AgentManagerState} {k : String} {a : Nat} {now : Int}
    (hinv : cacheInv s)
    (hk : strStartsWith k "chat_" = true ∨ strStartsWith k "task_" = true) :
    cacheInv (cacheAgent s k a now) := by
  rcases hinv with ⟨hkeys, hpref⟩
  by_cases hfull : s.maxCacheSize ≤ s.agentCache.length
  · cases hag : s.agentCache with
    | nil =>
      rw [cacheAgent_full_nil hag hfull]
      exact ⟨map_fst_dictSet_congr hkeys k a now, forall_key_dictSet a hpref hk⟩
    | cons p rest =>
      rw [cacheAgent_full_cons hag hfull]
      have hcp : dictContains s.cacheTimestamps p.1 = true := by
        rw [← dictContains_congr hkeys]
        rw [hag]
        simp [dictContains]
      rw [if_pos hcp]
      constructor
      · exact map_fst_dictSet_congr
          (map_fst_dictDel_congr (hag ▸ hkeys) p.1) k a now
      · refine forall_key_dictSet a ?_ hk
        refine forall_key_dictDel ?_
        intro k' hk'
        exact hpref k' (hag ▸ hk')
  · rw [cacheAgent_not_full (by omega)]
    exact ⟨map_fst_dictSet_congr hkeys k a now, forall_key_dictSet a hpref hk⟩

theorem chatKey_startsWith (u t : String) :
    strStartsWith ("chat_" ++ u ++ "_" ++ t) "chat_" = true := by
  rw [strStartsWith, String.data_append, String.data_append, String.data_append]
  rw [List.append_assoc, List.append_assoc]
  exact List.isPrefixOf_iff_prefix.mpr (List.prefix_append _ _)

theorem taskKey_startsWith (i t : String) :
    strStartsWith ("task_" ++ i ++ "_" ++ t) "task_" = true := by
  rw [strStartsWith, String.data_append, String.data_append, String.data_append]
  rw [List.append_assoc, List.append_assoc]
  exact List.isPrefixOf_iff_prefix.mpr (List.prefix_append _ _)

theorem getChatAgent_hit {s : AgentManagerState} {u t : String} {now : Int} {v : Nat}
    (hv : dictGet? s.agentCache ("chat_" ++ u ++ "_" ++ t) = some v) :
    getChatAgent s u t now = (v, s) := by
  unfold getChatAgent
  simp only [hv]

theorem getChatAgent_miss {s : AgentManagerState} {u t : String} {now : Int}
    (h : dictGet? s.agentCache ("chat_" ++ u ++ "_" ++ t) = none) :
    getChatAgent s u t now =
      (s.nextAgentId,
        cacheAgent
          { s with nextAgentId := s.nextAgentId + 1, buildCount := s.buildCount + 1 }
          ("chat_" ++ u ++ "_" ++ t) s.nextAgentId now) := by
  unfold getChatAgent
  simp only [h]

theorem getTaskAgent_hit {s : AgentManagerState} {i t : String} {now : Int} {v : Nat}
    (hv : dictGet? s.agentCache ("task_" ++ i ++ "_" ++ t) = some v) :
    getTaskAgent s i t now = (v, s) := by
  unfold getTaskAgent
  simp only [hv]

theorem getTaskAgent_miss {s : AgentManagerState} {i t : String} {now : Int}
    (h : dictGet? s.agentCache ("task_" ++ i ++ "_" ++ t) = none) :
    getTaskAgent s i t now =
      (s.nextAgentId,
        cacheAgent
          { s with nextAgentId := s.nextAgentId + 1, buildCount := s.buildCount + 1 }
          ("task_" ++ i ++ "_" ++ t) s.nextAgentId now) := by
  unfold getTaskAgent
  simp only [h]

theorem cacheInv_getChatAgent {s : AgentManagerState} (hinv : cacheInv s)
    (u t : String) (now : Int) : cacheInv (getChatAgent s u t now).2 := by
  cases hg : dictGet? s.agentCache ("chat_" ++ u ++ "_" ++ t) with
  | some v =>
    rw [getChatAgent_hit hg]
    exact hinv
  | none =>
    rw [getChatAgent_miss hg]
    exact cacheInv_cacheAgent hinv (Or.inl (chatKey_startsWith u t))

theorem cacheInv_getTaskAgent {s : AgentManagerState} (hinv : cacheInv s)
    (i t : String) (now : Int) : cacheInv (getTaskAgent s i t now).2 := by
  cases hg : dictGet? s.agentCache ("task_" ++ i ++ "_" ++ t) with
  | some v =>
    rw [getTaskAgent_hit hg]
    exact hinv
  | none =>
    rw [getTaskAgent_miss hg]
    exact cacheInv_cacheAgent hinv (Or.inr (taskKey_startsWith i t))

theorem cacheInv_cleanup {s : AgentManagerState} (hinv : cacheInv s) (now : Int) :
    cacheInv (cleanupExpiredCache s now) := by
  rcases hinv with ⟨hkeys, hpref⟩
  exact ⟨map_fst_foldl_dictDel_congr _ _ _ hkeys,
    fun k hk => hpref k (mem_map_fst_foldl_dictDel hk)⟩

theorem cacheInv_clearUser {s : AgentManagerState} (hinv : cacheInv s) (u : String) :
    cacheInv (clearUserAgent s u) := by
  rcases hinv with ⟨hkeys, hpref⟩
  exact ⟨map_fst_foldl_dictDel_congr _ _ _ hkeys,
    fun k hk => hpref k (mem_map_fst_foldl_dictDel hk)⟩

theorem cacheInv_clearAll {s : AgentManagerState} : cacheInv (clearAllCache s) := by
  exact ⟨rfl, by intro k hk; cases hk⟩

theorem length_filter_split {l : List String}
    (h : ∀ k ∈ l, strStartsWith k "chat_" = true ∨ strStartsWith k "task_" = true) :
    l.length = (l.filter (fun k => strStartsWith k "chat_")).length +
      (l.filter (fun k => strStartsWith k "task_")).length := by
  induction l with
  | nil => rfl
  | cons x l ih =>
    have hx := h x (List.mem_cons_self x l)
    have hrest : ∀ k ∈ l, strStartsWith k "chat_" = true ∨ strStartsWith k "task_" = true :=
      fun k hk => h k (List.mem_cons_of_mem x hk)
    rw [List.filter_cons, List.filter_cons, List.length_cons, ih hrest]
    rcases hx with hx | hx
    · have hnx : strStartsWith x "task_" = false := by
        cases hb : strStartsWith x "task_"
        · rfl
        · exact (chat_task_exclusive hx hb).elim
      simp [hx, hnx]
      omega
    · have hnx : strStartsWith x "chat_" = false := by
        cases hb : strStartsWith x "chat_"
        · rfl
        · exact (chat_task_exclusive hb hx).elim
      simp [hx, hnx]
      omega

theorem stats_split {s : AgentManagerState} (hinv : cacheInv s) :
    (getCacheStats s).total_agents =
      (getCacheStats s).chat_agents + (getCacheStats s).task_agents := by
  rcases hinv with ⟨_, hpref⟩
  have key := length_filter_split hpref
  rw [List.length_map] at key
  exact key

/-! ## Further support lemmas -/

theorem getLimitWarning_eq_none (maxMessages maxTokens : Nat) (messages : List Message) :
    getLimitWarning maxMessages maxTokens messages = none := by
  simp [getLimitWarning]

theorem dictContains_iff_mem_keys {α : Type} {d : List (String × α)} {k : String} :
    dictContains d k = true ↔ k ∈ d.map Prod.fst := by
  rw [dictContains_iff]
  constructor
  · rintro ⟨v, hv⟩
    exact List.mem_map.mpr ⟨(k, v), hv, rfl⟩
  · intro h
    rcases List.mem_map.mp h with ⟨p, hp, hk⟩
    rcases p with ⟨k1, v1⟩
    simp at hk
    subst hk
    exact ⟨v1, hp⟩

theorem length_dictSet {α : Type} (d : List (String × α)) (k : String) (v : α) :
    (dictSet d k v).length ≤ d.length + 1 := by
  rw [dictSet]
  split
  · rw [List.length_map]
    omega
  · rw [List.length_append]
    simp

theorem dictGet?_cacheAgent_self {s : AgentManagerState} {k : String} {a : Nat} {now : Int}
    (h : dictContains s.agentCache k = false) :
    dictGet? (cacheAgent s k a now).agentCache k = some a := by
  by_cases hfull : s.maxCacheSize ≤ s.agentCache.length
  · cases hag : s.agentCache with
    | nil =>
      rw [cacheAgent_full_nil hag hfull]
      show dictGet? (dictSet s.agentCache k a) k = some a
      rw [dictSet_of_not_contains a h]
      exact dictGet?_append_self h
    | cons p rest =>
      rw [cacheAgent_full_cons hag hfull]
      show dictGet? (dictSet (dictDel (p :: rest) p.1) k a) k = some a
      have h' : dictContains (dictDel (p :: rest) p.1) k = false :=
        dictContains_dictDel_false (hag ▸ h)
      rw [dictSet_of_not_contains a h']
      exact dictGet?_append_self h'
  · rw [cacheAgent_not_full (by omega)]
    show dictGet? (dictSet s.agentCache k a) k = some a
    rw [dictSet_of_not_contains a h]
    exact dictGet?_append_self h

theorem cacheAgent_buildCount (s : AgentManagerState) (k : String) (a : Nat) (now : Int) :
    (cacheAgent s k a now).buildCount = s.buildCount := by
  by_cases hfull : s.maxCacheSize ≤ s.agentCache.length
  · cases hag : s.agentCache with
    | nil => rw [cacheAgent_full_nil hag hfull]
    | cons p rest => rw [cacheAgent_full_cons hag hfull]
  · rw [cacheAgent_not_full (by omega)]

theorem approxTokens_floor (msg : Message) :
    approxTokens msg = ⌊(msg.content.length : ℚ) * (3 / 4)⌋₊ := by
  rw [approxTokens]
  have h1 : (msg.content.length : ℚ) * (3 / 4) =
      ((3 * msg.content.length : ℕ) : ℚ) / ((4 : ℕ) : ℚ) := by
    push_cast
    ring
  rw [h1, Nat.floor_div_nat, Nat.floor_natCast]

theorem tokenTrim_none (maxT : Nat) (l : List Message)
    (h : removeFirstNonSystem l = none) : tokenTrim maxT l = l := by
  rw [tokenTrim]
  cases hl : l.length with
  | zero => rfl
  | succ n =>
    rw [tokenTrimFuel]
    by_cases hg : maxT < estimateTokens l ∧ 2 < l.length
    · rw [if_pos hg, h]
    · rw [if_neg hg]

/-! ## Claim theorems: Bounded History Log -/

/-- Claim C4 (counterexample): as stated — over *every* history log, with no
token-budget assumption — the count bound fails: with `maxMessages = 3`,
`maxTokens = 0`, appending 4 non-system messages (k = 1) leaves 2 messages,
not 3, because the token trim keeps removing down to the 2-message floor. -/
theorem history_count_bound_cx :
    ¬ (addAll 3 0 []
        [⟨"human", "aaaa"⟩, ⟨"ai", "bbbb"⟩, ⟨"human", "cccc"⟩, ⟨"ai", "dddd"⟩]).length
      = 3 := by
  decide

/-- Claim C4 (amended): provided the estimated token total of the initial log
plus all appended messages stays within `maxTokens`, appending
`maxMessages + k` (k ≥ 1) non-system messages one at a time to a system-free
log leaves exactly the `maxMessages` most recently appended messages in their
append order; and the spec's scenario — `maxMessages = 3`, generous budget,
appends S(system), A, B, C, D — leaves [S, C, D]. -/
theorem history_count_bound (maxM maxT k : Nat) (init news : List Message)
    (hinit : ∀ m ∈ init, isSystemMessage m = false)
    (hnews : ∀ m ∈ news, isSystemMessage m = false)
    (hlen : news.length = maxM + k) (hk : 1 ≤ k)
    (htok : estimateTokens (init ++ news) ≤ maxT) :
    addAll maxM maxT init news = news.drop k ∧
    (news.drop k).length = maxM ∧
    addAll 3 1000000 []
      [⟨"system", "S"⟩, ⟨"human", "A"⟩, ⟨"ai", "B"⟩, ⟨"human", "C"⟩, ⟨"ai", "D"⟩] =
      [⟨"system", "S"⟩, ⟨"human", "C"⟩, ⟨"ai", "D"⟩] := by
  have hne : news ≠ [] := by
    intro h
    rw [h] at hlen
    simp at hlen
    omega
  have hmain := addAll_eq_drop maxM maxT news init (Or.inr hne) hinit hnews htok
  refine ⟨?_, by rw [List.length_drop]; omega, by decide⟩
  rw [hmain, drop_sub_append init news maxM (by omega), hlen]
  congr 1
  omega

/-- Claim C4 witness: `maxMessages = 2`, `maxTokens = 1000`, appending three
one-character non-system messages to the empty log keeps the last two. -/
theorem history_count_bound_witness :
    addAll 2 1000 [] [⟨"human", "a"⟩, ⟨"ai", "b"⟩, ⟨"human", "c"⟩] =
      ([⟨"human", "a"⟩, ⟨"ai", "b"⟩, ⟨"human", "c"⟩] : List Message).drop 1 :=
  (history_count_bound 2 1000 1 [] [⟨"human", "a"⟩, ⟨"ai", "b"⟩, ⟨"human", "c"⟩]
    (by decide) (by decide) (by decide) (by decide) (by decide)).1

/-- Claim C5: no sequence of `add_message` calls ever removes a system
message — the system-message subsequence of the log after any batch of
appends is exactly the system-message subsequence of the initial log
followed by that of the appended batch. -/
theorem system_messages_survive (maxM maxT : Nat) (init news : List Message) :
    (addAll maxM maxT init news).filter isSystemMessage =
      (init ++ news).filter isSystemMessage := by
  induction news generalizing init with
  | nil => simp [addAll]
  | cons n rest ih =>
    have h1 : addAll maxM maxT init (n :: rest) =
        addAll maxM maxT (addMessage maxM maxT init n) rest := rfl
    rw [h1, ih, List.filter_append]
    have h2 : (addMessage maxM maxT init n).filter isSystemMessage =
        (init ++ [n]).filter isSystemMessage :=
      filter_system_applyLimits maxM maxT (init ++ [n])
    rw [h2, ← List.filter_append, List.append_assoc, List.singleton_append]

/-- Claim C6: the token-trim loop runs after every append; it is the identity
when the estimate is within budget or at most 2 messages remain, stops (even
over budget) when no non-system message remains, otherwise removes the
oldest non-system message and recurses; every append therefore ends within
budget, at the 2-message floor, or with only system messages; and the
per-message estimate is `floor(len(content) * 0.75)`. -/
theorem token_trim_spec (maxT : Nat) (l : List Message) (msg : Message) :
    (estimateTokens l ≤ maxT ∨ l.length ≤ 2 → tokenTrim maxT l = l) ∧
    (∀ l', maxT < estimateTokens l → 2 < l.length →
      removeFirstNonSystem l = some l' → tokenTrim maxT l = tokenTrim maxT l') ∧
    (removeFirstNonSystem l = none → tokenTrim maxT l = l) ∧
    (estimateTokens (tokenTrim maxT l) ≤ maxT ∨ (tokenTrim maxT l).length ≤ 2 ∨
      removeFirstNonSystem (tokenTrim maxT l) = none) ∧
    (∀ (maxM : Nat) (msgs : List Message),
      estimateTokens (addMessage maxM maxT msgs msg) ≤ maxT ∨
      (addMessage maxM maxT msgs msg).length ≤ 2 ∨
      removeFirstNonSystem (addMessage maxM maxT msgs msg) = none) ∧
    approxTokens msg = ⌊(msg.content.length : ℚ) * (3 / 4)⌋₊ := by
  refine ⟨?_, ?_, tokenTrim_none maxT l, tokenTrim_post maxT l, ?_, approxTokens_floor msg⟩
  · intro h
    exact tokenTrimFuel_of_not_gt maxT l.length l (by omega)
  · intro l' h1 h2 hr
    exact tokenTrim_step maxT l l' h1 h2 hr
  · intro maxM msgs
    exact tokenTrim_post maxT _

/-- Claim C6 witness: a 3-message log over budget with a non-system head is
trimmed by one step. -/
theorem token_trim_spec_witness :
    (0 < estimateTokens [⟨"human", "aaaa"⟩, ⟨"ai", "bbbb"⟩, ⟨"human", "cccc"⟩] ∧
      2 < ([⟨"human", "aaaa"⟩, ⟨"ai", "bbbb"⟩, ⟨"human", "cccc"⟩] : List Message).length ∧
      removeFirstNonSystem [⟨"human", "aaaa"⟩, ⟨"ai", "bbbb"⟩, ⟨"human", "cccc"⟩] =
        some [⟨"ai", "bbbb"⟩, ⟨"human", "cccc"⟩]) ∧
    tokenTrim 0 [⟨"human", "aaaa"⟩, ⟨"ai", "bbbb"⟩, ⟨"human", "cccc"⟩] =
      tokenTrim 0 [⟨"ai", "bbbb"⟩, ⟨"human", "cccc"⟩] :=
  ⟨by decide,
    (token_trim_spec 0 [⟨"human", "aaaa"⟩, ⟨"ai", "bbbb"⟩, ⟨"human", "cccc"⟩]
      ⟨"human", "aaaa"⟩).2.1
      [⟨"ai", "bbbb"⟩, ⟨"human", "cccc"⟩] (by decide) (by decide) (by decide)⟩

/-- Claim C7: `get_limit_warning` returns `None` on every log state — the
warning text is assembled at the 80% thresholds but unconditionally
suppressed before being returned. -/
theorem limit_warning_always_none (maxM maxT : Nat) (msgs : List Message) :
    getLimitWarning maxM maxT msgs = none :=
  getLimitWarning_eq_none maxM maxT msgs

/-- Claim C8: when the wrapped executor fails, `AgentWrapper.ainvoke`
re-raises the error with the history untouched (no request or response
message appended); on success the request message is appended before the
response message and the returned output is the executor's output (the
always-`None` limit warning never alters it). -/
theorem ainvoke_error_propagation (maxM maxT : Nat) (inputText : String)
    (history : List Message) :
    (∀ e : String, wrapperAinvoke maxM maxT (Except.error e) inputText history =
      (Except.error e, history)) ∧
    (∀ output : String,
      wrapperAinvoke maxM maxT (Except.ok output) inputText history =
        (Except.ok output,
          addMessage maxM maxT (addMessage maxM maxT history ⟨"human", inputText⟩)
            ⟨"ai", output⟩)) := by
  refine ⟨fun e => rfl, fun output => ?_⟩
  simp [wrapperAinvoke, getLimitWarning_eq_none]

/-! ## Claim theorems: Handle Cache -/

/-- Claim C1 (counterexample): a cache hit does not refresh the entry's
timestamp, so an entry inserted at t=0 and hit at t=800 (within every
900-second TTL period) is nonetheless removed by the sweep at t=900 —
refuting "an entry accessed at least once per TTL period is never removed".
-/
theorem access_within_ttl_still_removed_cx :
    ((getChatAgent (getChatAgent initialAgentManager "u" "qianwen" 0).2
        "u" "qianwen" 800).2.cacheTimestamps =
      (getChatAgent initialAgentManager "u" "qianwen" 0).2.cacheTimestamps) ∧
    dictContains
      (cleanupExpiredCache
        (getChatAgent (getChatAgent initialAgentManager "u" "qianwen" 0).2
          "u" "qianwen" 800).2 900).agentCache "chat_u_qianwen" = false := by
  decide

/-- Claim C1 (amended): a cache hit returns the cached handle with the whole
state — in particular the timestamp map — unchanged, and the sweep removes an
entry exactly when the idle time measured from its *insertion* timestamp
reaches the TTL; an entry may therefore be swept even if it was accessed
within the TTL period. -/
theorem hit_does_not_refresh_ttl (s : AgentManagerState) (u t k : String)
    (ts now clock : Int)
    (hhit : dictContains s.agentCache ("chat_" ++ u ++ "_" ++ t) = true)
    (hnd : (s.cacheTimestamps.map Prod.fst).Nodup)
    (hget : dictGet? s.cacheTimestamps k = some ts)
    (hkc : dictContains s.agentCache k = true) :
    (getChatAgent s u t now).2 = s ∧
    (dictContains (cleanupExpiredCache s clock).agentCache k = true ↔
      clock - ts < s.cacheTtl) := by
  rcases dictGet?_isSome_of_contains hhit with ⟨v, hv⟩
  exact ⟨by rw [getChatAgent_hit hv], cleanup_contains_iff hnd hget hkc⟩

/-- Claim C1 witness: the amended theorem applied to the concrete state with
one chat entry inserted at time 0, sweeping at time 900. -/
theorem hit_does_not_refresh_ttl_witness :
    (getChatAgent (getChatAgent initialAgentManager "u" "qianwen" 0).2
        "u" "qianwen" 800).2 =
      (getChatAgent initialAgentManager "u" "qianwen" 0).2 ∧
    (dictContains
        (cleanupExpiredCache (getChatAgent initialAgentManager "u" "qianwen" 0).2
          900).agentCache "chat_u_qianwen" = true ↔
      (900 : Int) - 0 <
        (getChatAgent initialAgentManager "u" "qianwen" 0).2.cacheTtl) :=
  hit_does_not_refresh_ttl (getChatAgent initialAgentManager "u" "qianwen" 0).2
    "u" "qianwen" "chat_u_qianwen" 0 800 900
    (by decide) (by decide) (by decide) (by decide)

/-- Claim C2 (counterexample): `clear_user_agent` only matches keys with the
`chat_` prefix, so the task-kind entry of the same identity survives —
refuting "removes every cache entry ... for both the chat kind and the task
kind". -/
theorem clear_user_agent_keeps_task_entry_cx :
    dictContains
      (clearUserAgent (getTaskAgent initialAgentManager "u" "qianwen" 0).2
        "u").agentCache "task_u_qianwen" = true := by
  decide

/-- Claim C2 (amended): `clear_user_agent(identity)` removes exactly the
entries whose key starts with `chat_{identity}_` — every chat-kind entry of
that identity, for every llm-type variant — and keeps every other entry
(task-kind entries and other identities) with its cached value; it is a
total function, so no error is raised when no entry matches. -/
theorem clear_user_agent_removes_exactly_chat_keys (s : AgentManagerState)
    (u k : String) :
    (∀ p : String × Nat, p ∈ (clearUserAgent s u).agentCache ↔
        p ∈ s.agentCache ∧ strStartsWith p.1 ("chat_" ++ u ++ "_") = false) ∧
    dictContains (clearUserAgent s u).agentCache k =
      (dictContains s.agentCache k && !(strStartsWith k ("chat_" ++ u ++ "_"))) := by
  constructor
  · intro p
    show p ∈ ((s.agentCache.map (·.1)).filter
        (fun k' => strStartsWith k' ("chat_" ++ u ++ "_"))).foldl dictDel s.agentCache ↔ _
    rw [mem_foldl_dictDel]
    constructor
    · rintro ⟨hp, hnot⟩
      refine ⟨hp, ?_⟩
      cases hb : strStartsWith p.1 ("chat_" ++ u ++ "_") with
      | false => rfl
      | true =>
        exact absurd (List.mem_filter.mpr ⟨List.mem_map.mpr ⟨p, hp, rfl⟩, hb⟩) hnot
    · rintro ⟨hp, hfalse⟩
      refine ⟨hp, fun hmem => ?_⟩
      rw [List.mem_filter, hfalse] at hmem
      simp at hmem
  · rw [Bool.eq_iff_iff]
    constructor
    · intro h
      obtain ⟨hc, hnot⟩ := contains_foldl_dictDel_iff.mp h
      have hpred : strStartsWith k ("chat_" ++ u ++ "_") = false := by
        cases hb : strStartsWith k ("chat_" ++ u ++ "_") with
        | false => rfl
        | true =>
          exact absurd
            (List.mem_filter.mpr ⟨dictContains_iff_mem_keys.mp hc, hb⟩) hnot
      rw [hc, hpred]
      rfl
    · intro h
      have hc : dictContains s.agentCache k = true := by
        revert h
        cases dictContains s.agentCache k <;> simp
      have hpred : strStartsWith k ("chat_" ++ u ++ "_") = false := by
        revert h
        cases strStartsWith k ("chat_" ++ u ++ "_") <;>
          cases dictContains s.agentCache k <;> simp
      refine contains_foldl_dictDel_iff.mpr ⟨hc, fun hmem => ?_⟩
      rw [List.mem_filter, hpred] at hmem
      exact absurd hmem.2 (by simp)

/-- Claim C9: two `get_chat_agent` calls with the same identity and variant,
starting from a state without that key and with no intervening expiry or
eviction, build the agent exactly once (one `build_agent` invocation) and
return the same handle, the second call leaving the state untouched. -/
theorem agent_reuse_single_build (s : AgentManagerState) (u t : String)
    (now1 now2 : Int)
    (h : dictContains s.agentCache ("chat_" ++ u ++ "_" ++ t) = false) :
    (getChatAgent (getChatAgent s u t now1).2 u t now2).1 =
        (getChatAgent s u t now1).1 ∧
    (getChatAgent (getChatAgent s u t now1).2 u t now2).2 =
        (getChatAgent s u t now1).2 ∧
    (getChatAgent s u t now1).2.buildCount = s.buildCount + 1 := by
  have hnone := dictGet?_eq_none_of_contains_false h
  rw [getChatAgent_miss hnone]
  have hget1 : dictGet?
      (cacheAgent
        { s with nextAgentId := s.nextAgentId + 1, buildCount := s.buildCount + 1 }
        ("chat_" ++ u ++ "_" ++ t) s.nextAgentId now1).agentCache
      ("chat_" ++ u ++ "_" ++ t) = some s.nextAgentId :=
    dictGet?_cacheAgent_self h
  rw [getChatAgent_hit hget1]
  exact ⟨rfl, rfl, cacheAgent_buildCount _ _ _ _⟩

/-- Claim C9 witness: the theorem at the empty initial manager. -/
theorem agent_reuse_single_build_witness :
    (getChatAgent (getChatAgent initialAgentManager "u" "qianwen" 0).2
        "u" "qianwen" 5).1 = (getChatAgent initialAgentManager "u" "qianwen" 0).1 ∧
    (getChatAgent (getChatAgent initialAgentManager "u" "qianwen" 0).2
        "u" "qianwen" 5).2 = (getChatAgent initialAgentManager "u" "qianwen" 0).2 ∧
    (getChatAgent initialAgentManager "u" "qianwen" 0).2.buildCount =
      initialAgentManager.buildCount + 1 :=
  agent_reuse_single_build initialAgentManager "u" "qianwen" 0 5 (by decide)

/-- Claim C3: the cache never exceeds `maxEntries` (inserting into a cache
within capacity stays within capacity); an insert at the ceiling evicts
exactly the earliest-inserted entry before appending the new one; and
inserting `maxEntries + 1` distinct fresh keys into an empty cache of
capacity `maxEntries ≥ 1` leaves exactly `maxEntries` entries, with the
first-inserted key gone and all later keys present. -/
theorem cache_capacity_bound (s : AgentManagerState) (k : String) (a : Nat) (now : Int)
    (m : Nat) (k0 : String) (rest : List String) :
    ((s.agentCache.map Prod.fst).Nodup → s.agentCache.length ≤ s.maxCacheSize →
      1 ≤ s.maxCacheSize → (cacheAgent s k a now).agentCache.length ≤ s.maxCacheSize) ∧
    ((s.agentCache.map Prod.fst).Nodup → dictContains s.agentCache k = false →
      s.agentCache.length = s.maxCacheSize → 1 ≤ s.maxCacheSize →
      (cacheAgent s k a now).agentCache = s.agentCache.tail ++ [(k, a)]) ∧
    ((k0 :: rest).Nodup → rest.length = m → 1 ≤ m →
      (cacheAll (k0 :: rest) (initialAgentManagerWith m) now).agentCache
          = rest.map (fun k' => (k', 0)) ∧
      (cacheAll (k0 :: rest) (initialAgentManagerWith m) now).agentCache.length = m ∧
      dictContains (cacheAll (k0 :: rest)
          (initialAgentManagerWith m) now).agentCache k0 = false ∧
      ∀ k' ∈ rest, dictContains (cacheAll (k0 :: rest)
          (initialAgentManagerWith m) now).agentCache k' = true) := by
  refine ⟨?_, ?_, ?_⟩
  · intro hnd hle hpos
    by_cases hfull : s.maxCacheSize ≤ s.agentCache.length
    · have hlen : s.agentCache.length = s.maxCacheSize := le_antisymm hle hfull
      cases hag : s.agentCache with
      | nil =>
        rw [hag] at hlen
        simp at hlen
        omega
      | cons p rest' =>
        rw [cacheAgent_full_cons hag hfull]
        show (dictSet (dictDel (p :: rest') p.1) k a).length ≤ s.maxCacheSize
        have hnd' : ((p :: rest').map Prod.fst).Nodup := by
          rw [← hag]
          exact hnd
        rw [dictDel_head p rest' hnd']
        have h1 := length_dictSet rest' k a
        rw [hag, List.length_cons] at hlen
        omega
    · rw [cacheAgent_not_full (by omega)]
      show (dictSet s.agentCache k a).length ≤ s.maxCacheSize
      have h1 := length_dictSet s.agentCache k a
      omega
  · intro hnd hck hlen hpos
    have hfull : s.maxCacheSize ≤ s.agentCache.length := le_of_eq hlen.symm
    cases hag : s.agentCache with
    | nil =>
      rw [hag] at hlen
      simp at hlen
      omega
    | cons p rest' =>
      rw [cacheAgent_full_cons hag hfull]
      show dictSet (dictDel (p :: rest') p.1) k a = (p :: rest').tail ++ [(k, a)]
      rw [List.tail_cons]
      have hnd' : ((p :: rest').map Prod.fst).Nodup := by
        rw [← hag]
        exact hnd
      rw [dictDel_head p rest' hnd']
      rw [hag] at hck
      have hck' : dictContains rest' k = false := by
        rw [dictContains_eq_false_iff]
        intro q hq
        exact dictContains_eq_false_iff.mp hck q (List.mem_cons_of_mem p hq)
      exact dictSet_of_not_contains a hck'
  · intro hnd hrl hm
    rcases List.eq_nil_or_concat rest with hnil | ⟨front, klast, hconcat⟩
    · rw [hnil] at hrl
      simp at hrl
      omega
    · rw [List.concat_eq_append] at hconcat
      subst hconcat
      have hndf : (k0 :: front).Nodup :=
        List.Sublist.nodup (List.Sublist.cons₂ k0 (List.sublist_append_left front [klast]))
          hnd
      have hnd2 : (front ++ [klast]).Nodup := (List.nodup_cons.mp hnd).2
      have hkl_front : klast ∉ front := by
        rcases List.nodup_append.mp hnd2 with ⟨_, _, hdisj⟩
        intro hmem
        exact hdisj hmem (List.mem_singleton.mpr rfl)
      have hk0_rest : k0 ∉ front ++ [klast] := (List.nodup_cons.mp hnd).1
      have hfrl : front.length + 1 = m := by
        rw [List.length_append] at hrl
        simpa using hrl
      have hempty : (initialAgentManagerWith m).agentCache = [] := rfl
      have hmax0 : (initialAgentManagerWith m).maxCacheSize = m := rfl
      have hfill := cacheAll_fill now (k0 :: front) (initialAgentManagerWith m) hndf
        (fun k' _ => rfl)
        (by rw [hempty, hmax0, List.length_cons]; simp only [List.length_nil]; omega)
      obtain ⟨hfa, hfm⟩ := hfill
      rw [hempty, List.nil_append] at hfa
      rw [hmax0] at hfm
      have hsplit : cacheAll (k0 :: (front ++ [klast])) (initialAgentManagerWith m) now =
          cacheAgent (cacheAll (k0 :: front) (initialAgentManagerWith m) now)
            klast 0 now := by
        show List.foldl _ _ (k0 :: (front ++ [klast])) = _
        rw [← List.cons_append, List.foldl_append]
        rfl
      have hlenF : (cacheAll (k0 :: front)
          (initialAgentManagerWith m) now).agentCache.length = m := by
        rw [hfa, List.length_map, List.length_cons]
        omega
      have hfullF : (cacheAll (k0 :: front)
            (initialAgentManagerWith m) now).maxCacheSize ≤
          (cacheAll (k0 :: front)
            (initialAgentManagerWith m) now).agentCache.length := by
        rw [hlenF, hfm]
      have hagF : (cacheAll (k0 :: front)
            (initialAgentManagerWith m) now).agentCache =
          (k0, 0) :: front.map (fun k' => (k', 0)) := by
        rw [hfa]
        rfl
      have hcons := @cacheAgent_full_cons (k0, 0) (front.map (fun k' => (k', 0)))
        (cacheAll (k0 :: front) (initialAgentManagerWith m) now) klast 0 now
        hagF hfullF
      have hkeysF : (((k0, 0) :: front.map (fun k' => (k', 0))).map Prod.fst) =
          k0 :: front := by
        rw [List.map_cons, List.map_map]
        congr 1
        have hid : (Prod.fst ∘ fun k' : String => ((k', 0) : String × Nat)) = id := rfl
        rw [hid, List.map_id]
      have hndF : (((k0, 0) :: front.map (fun k' => (k', 0))).map Prod.fst).Nodup := by
        rw [hkeysF]
        exact hndf
      have hdel : dictDel ((k0, 0) :: front.map (fun k' => (k', 0))) (k0, 0).1 =
          front.map (fun k' => (k', 0)) := dictDel_head _ _ hndF
      have hckF : dictContains (front.map (fun k' => (k', 0))) klast = false := by
        rw [dictContains_eq_false_iff]
        intro q hq
        rcases List.mem_map.mp hq with ⟨x, hx, hxq⟩
        rw [← hxq]
        intro he
        have hxk : x = klast := he
        exact hkl_front (hxk ▸ hx)
      have hfinal : (cacheAll (k0 :: (front ++ [klast]))
            (initialAgentManagerWith m) now).agentCache =
          (front ++ [klast]).map (fun k' => (k', 0)) := by
        rw [hsplit, hcons]
        show dictSet (dictDel ((k0, 0) :: front.map (fun k' => (k', 0))) (k0, 0).1)
            klast 0 = _
        rw [hdel, dictSet_of_not_contains 0 hckF, List.map_append]
        rfl
      refine ⟨hfinal, ?_, ?_, ?_⟩
      · rw [hfinal, List.length_map]
        exact hrl
      · rw [hfinal, dictContains_eq_false_iff]
        intro q hq
        rcases List.mem_map.mp hq with ⟨x, hx, hxq⟩
        rw [← hxq]
        intro he
        have hxk : x = k0 := he
        exact hk0_rest (hxk ▸ hx)
      · intro k' hk'
        rw [hfinal]
        exact dictContains_iff.mpr ⟨0, List.mem_map.mpr ⟨k', hk', rfl⟩⟩

/-- Claim C3 witness: capacity 2, inserting the distinct keys a, b, c in
order evicts a and keeps b and c. -/
theorem cache_capacity_bound_witness :
    (cacheAll ["a", "b", "c"] (initialAgentManagerWith 2) 0).agentCache =
      (["b", "c"] : List String).map (fun k' => (k', 0)) ∧
    (cacheAll ["a", "b", "c"] (initialAgentManagerWith 2) 0).agentCache.length = 2 ∧
    dictContains
      (cacheAll ["a", "b", "c"] (initialAgentManagerWith 2) 0).agentCache "a" = false ∧
    ∀ k' ∈ (["b", "c"] : List String),
      dictContains
        (cacheAll ["a", "b", "c"] (initialAgentManagerWith 2) 0).agentCache k' = true :=
  (cache_capacity_bound initialAgentManager "x" 0 0 2 "a" ["b", "c"]).2.2
    (by decide) (by decide) (by decide)

/-- Claim C10: every Handle Cache operation — insert via `_cache_agent`
(eviction included), lookup-or-create for both kinds, the expiry sweep, the
per-user clear and the clear-all — preserves the invariant that the agent
map and the timestamp map hold exactly the same keys and that every key
starts with `chat_` or `task_`; consequently `get_cache_stats` always
reports `total_agents = chat_agents + task_agents`. -/
theorem cache_maps_invariant (s : AgentManagerState) (hinv : cacheInv s) :
    cacheInv initialAgentManager ∧
    (∀ (k : String) (a : Nat) (now : Int),
      strStartsWith k "chat_" = true ∨ strStartsWith k "task_" = true →
      cacheInv (cacheAgent s k a now)) ∧
    (∀ (u t : String) (now : Int), cacheInv (getChatAgent s u t now).2) ∧
    (∀ (i t : String) (now : Int), cacheInv (getTaskAgent s i t now).2) ∧
    (∀ now : Int, cacheInv (cleanupExpiredCache s now)) ∧
    (∀ u : String, cacheInv (clearUserAgent s u)) ∧
    cacheInv (clearAllCache s) ∧
    (getCacheStats s).total_agents =
      (getCacheStats s).chat_agents + (getCacheStats s).task_agents := by
  refine ⟨⟨rfl, by intro k hk; cases hk⟩,
    fun k a now hk => cacheInv_cacheAgent hinv hk,
    fun u t now => cacheInv_getChatAgent hinv u t now,
    fun i t now => cacheInv_getTaskAgent hinv i t now,
    fun now => cacheInv_cleanup hinv now,
    fun u => cacheInv_clearUser hinv u,
    cacheInv_clearAll,
    stats_split hinv⟩

/-- Claim C10 witness: the invariant holds for the state with one chat entry
and its stats decompose as `total = chat + task`. -/
theorem cache_maps_invariant_witness :
    cacheInv (getChatAgent initialAgentManager "u" "qianwen" 0).2 ∧
    (getCacheStats (getChatAgent initialAgentManager "u" "qianwen" 0).2).total_agents =
      (getCacheStats (getChatAgent initialAgentManager "u" "qianwen" 0).2).chat_agents +
        (getCacheStats (getChatAgent initialAgentManager "u" "qianwen" 0).2).task_agents := by
  have hinv : cacheInv (getChatAgent initialAgentManager "u" "qianwen" 0).2 :=
    ⟨by decide, by decide⟩
  exact ⟨hinv,
    (cache_maps_invariant (getChatAgent initialAgentManager "u" "qianwen" 0).2
      hinv).2.2.2.2.2.2.2⟩

end AiSmartTraveller
